import Mathlib

/-!
Formal model of the simple-message-broker write/read engine.

The development shallowly embeds the Go sources:
  * `internal/recordbatch/recordbatch.go` — the record-batch binary codec
    (`Write`, `Parse`, `RecordBatch.Record`);
  * `internal/storage/storage.go` — the storage coordinator
    (`NewStorage`, `Storage.AddRecordBatch`, `Storage.ReadRecord`,
    `listRecordBatchIDs`, `recordBatchPath`) and the object-store backing
    (`S3Storage.Writer`'s already-exists check, `s3WriteCloser.Close`).

Bytes and file paths are modelled as lists of natural numbers (byte values /
character codes).  Machine-integer arithmetic (`uint32`, `uint64`) is modelled
on `Nat` with explicit `% 2 ^ 32` / `% 2 ^ 64` at each operation where the Go
code computes in a fixed-width type.  The backing storage (interface
`BackingStorage`) is modelled as an association list from paths to committed
byte contents; the `Writer`'s behaviour follows `S3Storage.Writer`, which
fails when the target path already exists and commits the written bytes on a
successful `Close`.
-/

/-- Byte strings: each element is a byte value (0–255 for real data). -/
abbrev Bytes := List Nat

/-- File paths, as lists of character codes ('/' is 47). -/
abbrev FPath := List Nat

/-- The backing storage's committed files: an association list from path to
contents.  New commits are prepended. -/
abbrev Files := List (FPath × Bytes)

/-- Abstract error kinds, mirroring the error values the Go code produces.
`outOfBounds` models `recordbatch.ErrOutOfBounds` (matched with `errors.Is`
through all the `fmt.Errorf("...: %w", err)` wrappings). -/
inductive Err where
  | outOfBounds
  | ioError
  | formatError
  | alreadyExists
  deriving DecidableEq

namespace recordbatch

/-- Little-endian bytes of a `uint16`, as `binary.Write` emits them. -/
def u16le (n : Nat) : List Nat := [n % 256, n / 256 % 256]

/-- Little-endian bytes of a `uint32`. -/
def u32le (n : Nat) : List Nat :=
  [n % 256, n / 256 % 256, n / 256 ^ 2 % 256, n / 256 ^ 3 % 256]

/-- Little-endian bytes of a `uint64` / `int64`. -/
def u64le (n : Nat) : List Nat :=
  [n % 256, n / 256 % 256, n / 256 ^ 2 % 256, n / 256 ^ 3 % 256,
   n / 256 ^ 4 % 256, n / 256 ^ 5 % 256, n / 256 ^ 6 % 256, n / 256 ^ 7 % 256]

/-- Value of a little-endian byte string (inverse of the `u*le` encoders). -/
def leVal (bs : List Nat) : Nat := bs.foldr (fun b acc => b + 256 * acc) 0

/-- The parsed header of a record-batch file (struct `Header`).  The 14
reserved bytes are ignored on read and therefore not retained. -/
structure Header where
  magicBytes : List Nat
  version : Nat
  unixEpochUs : Nat
  numRecords : Nat
  deriving DecidableEq

/-- `FileFormatMagicBytes = [4]byte{'s', 'm', 'b', '!'}`. -/
def FileFormatMagicBytes : List Nat := [115, 109, 98, 33]

/-- `FileFormatVersion = 1`. -/
def FileFormatVersion : Nat := 1

/-- Go constant `headerBytes = 32`. -/
def headerSize : Nat := 32

/-- Go constant `recordIndexSize = 4`. -/
def recordIndexSize : Nat := 4

/-- The 32 header bytes `binary.Write` emits for struct `Header`, in field
order: magic (4), version as little-endian int16 (2), timestamp as
little-endian int64 (8), record count as little-endian uint32 (4), and 14
zero reserved bytes. -/
def headerBytesOf (ts : Nat) (numRecords : Nat) : Bytes :=
  FileFormatMagicBytes ++ u16le FileFormatVersion ++ u64le ts ++
    u32le numRecords ++ List.replicate 14 0

/-- The record index values built by `Write`'s loop: `recordIndexes[i]` is the
running `uint32` offset accumulated before record `i`.  The accumulator is a
`uint32`, so each addition of `uint32(len(record))` wraps modulo `2 ^ 32`. -/
def buildRecordIndexes (acc : Nat) : List Bytes → List Nat
  | [] => []
  | r :: rs => acc :: buildRecordIndexes ((acc + r.length % 2 ^ 32) % 2 ^ 32) rs

/-- `recordbatch.Write(wtr, records)`: the exact byte string written to the
sink — header, then the index entries as little-endian uint32s, then the
record payloads concatenated.  `ts` is the value returned by the pluggable
`UnixEpochUs` clock at call time. -/
def Write (ts : Nat) (records : List Bytes) : Bytes :=
  headerBytesOf ts records.length ++
    ((buildRecordIndexes 0 records).map u32le).flatten ++ records.flatten

/-- A parsed record batch: the header, the decoded record index, and the
retained seekable reader.  `Record` seeks absolutely from the start of the
file, so the reader is modelled by the full file contents. -/
structure RecordBatch where
  header : Header
  recordIndex : List Nat
  data : Bytes
  deriving DecidableEq

/-- Decode `n` consecutive little-endian uint32s, as `binary.Read` does into
`make([]uint32, n)`. -/
def readU32s : Nat → Bytes → List Nat
  | 0, _ => []
  | n + 1, bs => leVal (bs.take 4) :: readU32s n (bs.drop 4)

/-- `recordbatch.Parse(rdr)`: reads the 32-byte header (failing on a short
read), then `header.NumRecords` uint32 index entries (failing on a short
read), and retains the reader.  Magic bytes and version are read but not
validated, exactly as in the code. -/
def Parse (data : Bytes) : Option RecordBatch :=
  if data.length < 32 then none
  else
    let numRecords := leVal ((data.drop 14).take 4)
    if (data.drop 32).length < 4 * numRecords then none
    else some
      { header :=
          { magicBytes := data.take 4
            version := leVal ((data.drop 4).take 2)
            unixEpochUs := leVal ((data.drop 6).take 8)
            numRecords := numRecords }
        recordIndex := readU32s numRecords (data.drop 32)
        data := data }

/-- `RecordBatch.Record(recordIndex)`: out-of-bounds check against
`Header.NumRecords`, absolute seek to
`headerBytes + NumRecords*recordIndexSize + recordIndex[i]` (computed in
`uint32`), then either `io.ReadAll` to end of file for the final record or an
`io.ReadFull` of `recordIndex[i+1] - recordIndex[i]` bytes (a `uint32`
subtraction) for earlier records. -/
def RecordBatch.Record (rb : RecordBatch) (recordIndex : Nat) : Except Err Bytes :=
  if rb.header.numRecords ≤ recordIndex then .error .outOfBounds
  else
    let recordOffset := rb.recordIndex.getD recordIndex 0
    let fileOffset := (32 + rb.header.numRecords * 4 + recordOffset) % 2 ^ 32
    if recordIndex = rb.recordIndex.length - 1 then
      .ok (rb.data.drop fileOffset)
    else
      let size := (rb.recordIndex.getD (recordIndex + 1) 0 + 2 ^ 32 - recordOffset) % 2 ^ 32
      if (rb.data.drop fileOffset).length < size then .error .ioError
      else .ok ((rb.data.drop fileOffset).take size)

end recordbatch

/-- The batch-file extension constant `recordBatchExtension`.  Its definition
is not among the provided sources (only its uses are); modelled from the
spec's naming convention as the fixed suffix `".record-batch"`.  Nothing
below depends on its exact characters beyond it containing no '/' (47). -/
def recordBatchExtension : FPath :=
  [46, 114, 101, 99, 111, 114, 100, 45, 98, 97, 116, 99, 104]

/-- Decimal digits of `n`, least significant first, by repeated division —
the digits `fmt.Sprintf("%d", n)` renders.  The first argument is structural
fuel (`n` itself suffices). -/
def decDigitsAux : Nat → Nat → List Nat
  | 0, _ => []
  | _ + 1, 0 => []
  | fuel + 1, n + 1 => ((n + 1) % 10) :: decDigitsAux fuel ((n + 1) / 10)

/-- Decimal digits of `n`, least significant first (empty for 0). -/
def decDigits (n : Nat) : List Nat := decDigitsAux n n

/-- The character codes of `fmt.Sprintf("%012d", n)`: the decimal rendering
of `n` left-padded with '0' (48) to at least 12 characters. -/
def pad12 (n : Nat) : FPath :=
  List.replicate (12 - (decDigits n).length) 48 ++
    ((decDigits n).reverse.map (fun d => 48 + d))

/-- `recordBatchPath(topicPath, recordBatchID)`:
`filepath.Join(topicPath, fmt.Sprintf("%012d%s", recordBatchID, recordBatchExtension))`. -/
def recordBatchPath (topicPath : FPath) (recordBatchID : Nat) : FPath :=
  topicPath ++ [47] ++ pad12 recordBatchID ++ recordBatchExtension

/-- The coordinator's in-memory state (struct `Storage`).  The logger is
irrelevant to behaviour and the backing storage is passed explicitly as a
`Files` value, so neither is a field here. -/
structure Storage where
  topicPath : FPath
  nextRecordID : Nat
  recordBatchIDs : List Nat
  deriving DecidableEq

/-- Association-list lookup of a committed file (the backing `Reader` /
`filey.Exists` check). -/
def lookupFile : Files → FPath → Option Bytes
  | [], _ => none
  | (p, d) :: fs, q => if p = q then some d else lookupFile fs q

/-- `Storage.AddRecordBatch(records)` against the object-store backing of
`S3Storage.Writer`: opening the writer fails if the path already exists;
otherwise the codec write to the byte sink succeeds and the deferred `Close`
commits the bytes, after which the batch ID is appended and `nextRecordID`
advanced by `uint64(len(records))` (a `uint64` addition). -/
def Storage.AddRecordBatch (ts : Nat) (s : Storage) (files : Files)
    (records : List Bytes) : Except Err (Storage × Files) :=
  let recordBatchID := s.nextRecordID
  let rbPath := recordBatchPath s.topicPath recordBatchID
  if (lookupFile files rbPath).isSome then .error .alreadyExists
  else
    .ok ({ s with
            recordBatchIDs := s.recordBatchIDs ++ [recordBatchID]
            nextRecordID := (recordBatchID + records.length) % 2 ^ 64 },
         (rbPath, recordbatch.Write ts records) :: files)

/-- `Storage.AddRecordBatch` with the writer's three failure points made
explicit, following the Go control flow exactly:
  * `openOk = false`: `backingStorage.Writer` fails — return the error, no
    state mutation;
  * `writeOk = false`: `recordbatch.Write` fails — return the error, no state
    mutation (the deferred `Close` still runs, its error discarded);
  * otherwise the batch ID is appended and `nextRecordID` advanced, and the
    function returns `nil`; only then does the deferred `f.Close()` run, and
    its error — `closeOk = false`, e.g. a failed S3 upload in
    `s3WriteCloser.Close` — is discarded by `defer f.Close()`. -/
def Storage.AddRecordBatchFx (openOk writeOk closeOk : Bool) (s : Storage)
    (records : List Bytes) : Option Err × Storage :=
  if openOk = false then (some .ioError, s)
  else if writeOk = false then (some .ioError, s)
  else
    (none, { s with
              recordBatchIDs := s.recordBatchIDs ++ [s.nextRecordID]
              nextRecordID := (s.nextRecordID + records.length) % 2 ^ 64 })

/-- The descending scan of `ReadRecord`'s loop, run on the reversed
`recordBatchIDs`: the first element `≤ recordID` wins; the loop variable
`recordBatchID` stays zero-initialised when no element matches. -/
def scanBack : List Nat → Nat → Nat
  | [], _ => 0
  | id :: rest, recordID => if id ≤ recordID then id else scanBack rest recordID

/-- The batch-location step of `Storage.ReadRecord`: scan `recordBatchIDs`
from the end, stopping at the first entry `≤ recordID`. -/
def findBatchID (ids : List Nat) (recordID : Nat) : Nat :=
  scanBack ids.reverse recordID

/-- `Storage.ReadRecord(recordID)`, threading the coordinator state through
explicitly (the Go method has a pointer receiver; the returned `Storage` is
the receiver's state when the method returns).  Bounds check against
`nextRecordID`, batch location, backing `Reader`, `recordbatch.Parse`, then
`rb.Record(uint32(recordID - recordBatchID))` — a `uint64` subtraction
truncated to `uint32`. -/
def Storage.ReadRecordSt (s : Storage) (files : Files) (recordID : Nat) :
    Except Err Bytes × Storage :=
  if s.nextRecordID ≤ recordID then (.error .outOfBounds, s)
  else
    let recordBatchID := findBatchID s.recordBatchIDs recordID
    match lookupFile files (recordBatchPath s.topicPath recordBatchID) with
    | none => (.error .ioError, s)
    | some data =>
      match recordbatch.Parse data with
      | none => (.error .formatError, s)
      | some rb =>
        (rb.Record (((recordID + 2 ^ 64 - recordBatchID) % 2 ^ 64) % 2 ^ 32), s)

/-- The record bytes / error returned by `Storage.ReadRecord(recordID)`. -/
def Storage.ReadRecord (s : Storage) (files : Files) (recordID : Nat) :
    Except Err Bytes :=
  (s.ReadRecordSt files recordID).1

/-- `path.Base`: the portion of the path after the final '/' (for the
slash-free-suffix paths the coordinator builds). -/
def pathBase (p : FPath) : FPath := (p.reverse.takeWhile (fun c => c ≠ 47)).reverse

/-- `uint64y.FromString` (i.e. `strconv.ParseUint(s, 10, 64)`): fails on an
empty string or any non-digit character or a value outside `uint64`. -/
def parseDecimal (cs : FPath) : Option Nat :=
  if cs.isEmpty then none
  else if cs.all (fun c => 48 ≤ c ∧ c ≤ 57) then
    let v := cs.foldl (fun acc c => 10 * acc + (c - 48)) 0
    if v < 2 ^ 64 then some v else none
  else none

/-- One iteration of `listRecordBatchIDs`'s loop: take the base name of the
file path, strip the trailing `recordBatchExtension` by length, and parse the
remaining decimal string. -/
def parseRecordBatchID (filePath : FPath) : Option Nat :=
  let fileName := pathBase filePath
  parseDecimal (fileName.take (fileName.length - recordBatchExtension.length))

/-- `listRecordBatchIDs`: parse every listed path in order, propagating the
first parse error.  The IDs are returned in the order `ListFiles` produced
the paths — the function performs no sorting. -/
def listRecordBatchIDs : List FPath → Option (List Nat)
  | [] => some []
  | fp :: fps =>
    match parseRecordBatchID fp, listRecordBatchIDs fps with
    | some id, some ids => some (id :: ids)
    | _, _ => none

/-- `readRecordBatchHeader`: open the batch file via the backing `Reader`,
`Parse` it, and return its header. -/
def readRecordBatchHeader (files : Files) (topicPath : FPath)
    (recordBatchID : Nat) : Except Err recordbatch.Header :=
  match lookupFile files (recordBatchPath topicPath recordBatchID) with
  | none => .error .ioError
  | some data =>
    match recordbatch.Parse data with
    | none => .error .formatError
    | some rb => .ok rb.header

/-- `NewStorage(log, backingStorage, rootDir, topic)`.  `listResult` is the
path list returned by the backing's `ListFiles` (its order is the backing's
choice); `files` holds the committed file contents.  When batches exist,
`nextRecordID` is set from the LAST listed ID (`recordBatchIDs[len-1]`) plus
that batch's header record count; no sorting happens anywhere. -/
def NewStorage (listResult : List FPath) (files : Files)
    (rootDir topic : FPath) : Except Err Storage :=
  let topicPath := rootDir ++ [47] ++ topic
  match listRecordBatchIDs listResult with
  | none => .error .formatError
  | some recordBatchIDs =>
    if recordBatchIDs.isEmpty then
      .ok { topicPath := topicPath, nextRecordID := 0, recordBatchIDs := recordBatchIDs }
    else
      let newestRecordBatchID := recordBatchIDs.getLast?.getD 0
      match readRecordBatchHeader files topicPath newestRecordBatchID with
      | .error e => .error e
      | .ok hdr =>
        .ok { topicPath := topicPath
              nextRecordID := (newestRecordBatchID + hdr.numRecords) % 2 ^ 64
              recordBatchIDs := recordBatchIDs }

/-- A sequence of `AddRecordBatch` calls, stopping at the first failure. -/
def runAdds (ts : Nat) : Storage → Files → List (List Bytes) → Except Err (Storage × Files)
  | s, files, [] => .ok (s, files)
  | s, files, records :: rest =>
    match s.AddRecordBatch ts files records with
    | .error e => .error e
    | .ok (s', files') => runAdds ts s' files' rest

/-- Outcome of `s3WriteCloser.Close`: the returned error, whether
`swc.f.Close()` was reached, and whether the local cache file is still on
disk (it is never removed). -/
structure S3CloseResult where
  err : Option Err
  fileClosed : Bool
  cacheFileOnDisk : Bool
  deriving DecidableEq

/-- `s3WriteCloser.Close`: seek the cache file to 0, upload it, then close
it — returning early (without closing) if the seek or the upload fails. -/
def s3WriteCloserClose (seekOk uploadOk closeOk : Bool) : S3CloseResult :=
  if seekOk = false then { err := some .ioError, fileClosed := false, cacheFileOnDisk := true }
  else if uploadOk = false then { err := some .ioError, fileClosed := false, cacheFileOnDisk := true }
  else if closeOk = false then { err := some .ioError, fileClosed := true, cacheFileOnDisk := true }
  else { err := none, fileClosed := true, cacheFileOnDisk := true }

/-- Sum of the lengths of the elements: the total record count of a batch
list, or the total payload byte count of a record list. -/
def totalLen {α : Type} (l : List (List α)) : Nat := (l.map List.length).sum

/-- Prefix sums of the element lengths starting at `off`: the record IDs at
which consecutive batches start, or the payload offsets at which consecutive
records start (the specification-side values, with no wraparound). -/
def startsFrom {α : Type} (off : Nat) : List (List α) → List Nat
  | [] => []
  | x :: xs => off :: startsFrom (off + x.length) xs

/-- The files a successful `runAdds` commits, newest first, when the first
batch is assigned ID `off`. -/
def addedFiles (ts : Nat) (tp : FPath) (off : Nat) : List (List Bytes) → Files
  | [] => []
  | b :: bs =>
    addedFiles ts tp (off + b.length) bs ++ [(recordBatchPath tp off, recordbatch.Write ts b)]

/-- Offset of element `i` in the flattened list: the sum of the lengths of
the preceding elements. -/
def startOf {α : Type} (l : List (List α)) (i : Nat) : Nat :=
  ((l.take i).map List.length).sum

deriving instance DecidableEq for Except

/-! ### Generic list helpers -/

theorem lookupFile_eq_none (A : Files) (q : FPath) (h : ∀ pr ∈ A, pr.1 ≠ q) :
    lookupFile A q = none := by
  induction A with
  | nil => rfl
  | cons pr fs ih =>
    obtain ⟨p, d⟩ := pr
    simp only [lookupFile]
    rw [if_neg (h (p, d) (by simp)), ih (fun pr hpr => h pr (by simp [hpr]))]

theorem lookupFile_append_of_none (A B : Files) (q : FPath)
    (h : lookupFile A q = none) : lookupFile (A ++ B) q = lookupFile B q := by
  induction A with
  | nil => rfl
  | cons pr fs ih =>
    obtain ⟨p, d⟩ := pr
    simp only [lookupFile] at h ⊢
    by_cases hpq : p = q
    · simp [hpq] at h
    · rw [if_neg hpq] at h
      rw [if_neg hpq]
      exact ih h

theorem lookupFile_cons_isSome (fs : Files) (p : FPath) (d : Bytes) (q : FPath)
    (h : (lookupFile fs q).isSome) : (lookupFile ((p, d) :: fs) q).isSome := by
  simp only [lookupFile]
  by_cases hpq : p = q
  · simp [hpq]
  · simpa [hpq] using h

theorem takeWhile_append_all {α : Type} (p : α → Bool) (l l2 : List α)
    (h : ∀ x ∈ l, p x) : (l ++ l2).takeWhile p = l ++ l2.takeWhile p := by
  induction l with
  | nil => simp
  | cons a l ih =>
    simp only [List.cons_append, List.takeWhile_cons, h a (by simp)]
    simp [ih (fun x hx => h x (by simp [hx]))]

theorem scanBack_all_gt (M1 M2 : List Nat) (i : Nat) (h : ∀ x ∈ M1, i < x) :
    scanBack (M1 ++ M2) i = scanBack M2 i := by
  induction M1 with
  | nil => rfl
  | cons a M1 ih =>
    simp only [List.cons_append, scanBack]
    rw [if_neg (by have := h a (by simp); omega)]
    exact ih (fun x hx => h x (by simp [hx]))

theorem scanBack_append_of_any (M1 M2 : List Nat) (i : Nat)
    (h : ∃ x ∈ M1, x ≤ i) : scanBack (M1 ++ M2) i = scanBack M1 i := by
  induction M1 with
  | nil => simp at h
  | cons a M1 ih =>
    simp only [List.cons_append, scanBack]
    by_cases ha : a ≤ i
    · rw [if_pos ha, if_pos ha]
    · rw [if_neg ha, if_neg ha]
      refine ih ?_
      obtain ⟨x, hx, hxi⟩ := h
      rcases List.mem_cons.mp hx with rfl | hx'
      · omega
      · exact ⟨x, hx', hxi⟩

/-! ### Lemmas about `startsFrom`, `startOf`, `totalLen` and `flatten` -/

theorem totalLen_cons {α : Type} (x : List α) (l : List (List α)) :
    totalLen (x :: l) = x.length + totalLen l := by
  simp [totalLen]

theorem startsFrom_ge {α : Type} (off : Nat) (l : List (List α)) :
    ∀ x ∈ startsFrom off l, off ≤ x := by
  induction l generalizing off with
  | nil => simp [startsFrom]
  | cons b bs ih =>
    intro x hx
    simp only [startsFrom, List.mem_cons] at hx
    rcases hx with rfl | hx
    · exact Nat.le_refl x
    · have := ih (off + b.length) x hx
      omega

theorem startsFrom_length {α : Type} (off : Nat) (l : List (List α)) :
    (startsFrom off l).length = l.length := by
  induction l generalizing off with
  | nil => rfl
  | cons b bs ih => simp [startsFrom, ih]

theorem startOf_zero {α : Type} (l : List (List α)) : startOf l 0 = 0 := rfl

theorem startOf_cons_succ {α : Type} (b : List α) (l : List (List α)) (i : Nat) :
    startOf (b :: l) (i + 1) = b.length + startOf l i := by
  simp [startOf, List.take_succ_cons]

theorem startOf_succ_getD {α : Type} (l : List (List α)) (i : Nat)
    (h : i < l.length) :
    startOf l (i + 1) = startOf l i + (l.getD i []).length := by
  induction l generalizing i with
  | nil => simp at h
  | cons b bs ih =>
    cases i with
    | zero => simp [startOf, List.getD]
    | succ j =>
      have hj : j < bs.length := by simpa using h
      simp only [startOf_cons_succ, List.getD_cons_succ]
      rw [ih j hj]
      omega

theorem startOf_le_totalLen {α : Type} (l : List (List α)) (i : Nat) :
    startOf l i ≤ totalLen l := by
  induction l generalizing i with
  | nil => simp [startOf, totalLen]
  | cons b bs ih =>
    cases i with
    | zero => simp [startOf_zero]
    | succ j =>
      rw [startOf_cons_succ, totalLen_cons]
      have := ih j
      omega

theorem startsFrom_getD {α : Type} (off : Nat) (l : List (List α)) (i : Nat)
    (h : i < l.length) :
    (startsFrom off l).getD i 0 = off + startOf l i := by
  induction l generalizing off i with
  | nil => simp at h
  | cons b bs ih =>
    cases i with
    | zero => simp [startsFrom, startOf_zero]
    | succ j =>
      have hj : j < bs.length := by simpa using h
      simp only [startsFrom, List.getD_cons_succ, startOf_cons_succ]
      rw [ih (off + b.length) j hj]
      omega

theorem flatten_length {α : Type} (l : List (List α)) :
    l.flatten.length = totalLen l := by
  induction l with
  | nil => rfl
  | cons b bs ih => simp [totalLen_cons, ih]

theorem flatten_drop_startOf {α : Type} (l : List (List α)) (i : Nat)
    (h : i < l.length) :
    l.flatten.drop (startOf l i) = l.getD i [] ++ (l.drop (i + 1)).flatten := by
  induction l generalizing i with
  | nil => simp at h
  | cons b bs ih =>
    cases i with
    | zero => simp [startOf_zero]
    | succ j =>
      have hj : j < bs.length := by simpa using h
      rw [startOf_cons_succ]
      simp only [List.flatten_cons, List.getD_cons_succ, List.drop_succ_cons]
      rw [List.drop_append, ih j hj]

theorem getD_drop {α : Type} (l : List α) (m k : Nat) (d : α) :
    (l.drop m).getD k d = l.getD (m + k) d := by
  induction l generalizing m with
  | nil => simp
  | cons a l ih =>
    cases m with
    | zero => simp
    | succ m' =>
      simp only [List.drop_succ_cons, ih m']
      have : m' + 1 + k = (m' + k) + 1 := by omega
      rw [this, List.getD_cons_succ]

theorem flatten_getD {α : Type} (l : List (List α)) (j k : Nat) (d : α)
    (hj : j < l.length) (hk : k < (l.getD j []).length) :
    l.flatten.getD (startOf l j + k) d = (l.getD j []).getD k d := by
  rw [← getD_drop l.flatten (startOf l j) k d, flatten_drop_startOf l j hj,
    List.getD_append _ _ _ _ hk]

/-! ### Byte-encoding lemmas -/

namespace recordbatch

theorem u32le_length (n : Nat) : (u32le n).length = 4 := rfl

theorem leVal_u32le (n : Nat) : leVal (u32le n) = n % 2 ^ 32 := by
  simp only [u32le, leVal, List.foldr_cons, List.foldr_nil]
  omega

theorem headerBytesOf_length (ts n : Nat) : (headerBytesOf ts n).length = 32 := by
  simp [headerBytesOf, FileFormatMagicBytes, u16le, u64le, u32le]

theorem map_u32le_flatten_length (L : List Nat) :
    ((L.map u32le).flatten).length = 4 * L.length := by
  induction L with
  | nil => rfl
  | cons x L ih =>
    simp only [List.map_cons, List.flatten_cons, List.length_append, List.length_cons,
      ih, u32le_length]
    omega

theorem buildRecordIndexes_length (acc : Nat) (l : List Bytes) :
    (buildRecordIndexes acc l).length = l.length := by
  induction l generalizing acc with
  | nil => rfl
  | cons r rs ih => simp [buildRecordIndexes, ih]

theorem buildRecordIndexes_eq_startsFrom (acc : Nat) (l : List Bytes)
    (h : acc + totalLen l < 2 ^ 32) :
    buildRecordIndexes acc l = startsFrom acc l := by
  induction l generalizing acc with
  | nil => rfl
  | cons r rs ih =>
    rw [totalLen_cons] at h
    have h1 : r.length % 2 ^ 32 = r.length := Nat.mod_eq_of_lt (by omega)
    have h2 : (acc + r.length) % 2 ^ 32 = acc + r.length := Nat.mod_eq_of_lt (by omega)
    simp only [buildRecordIndexes, startsFrom, h1, h2]
    rw [ih (acc + r.length) (by omega)]

theorem Write_length (ts : Nat) (records : List Bytes) :
    (Write ts records).length = 32 + 4 * records.length + totalLen records := by
  rw [Write, List.length_append, List.length_append, headerBytesOf_length,
    map_u32le_flatten_length, buildRecordIndexes_length, flatten_length]

theorem readU32s_map_u32le (xs : List Nat) (rest : Bytes)
    (hx : ∀ x ∈ xs, x < 2 ^ 32) :
    readU32s xs.length ((xs.map u32le).flatten ++ rest) = xs := by
  induction xs with
  | nil => rfl
  | cons x xs ih =>
    have htake : (u32le x ++ ((xs.map u32le).flatten ++ rest)).take 4 = u32le x := by
      rw [show (4 : Nat) = (u32le x).length from rfl, List.take_left]
    have hdrop : (u32le x ++ ((xs.map u32le).flatten ++ rest)).drop 4 =
        (xs.map u32le).flatten ++ rest := by
      rw [show (4 : Nat) = (u32le x).length from rfl, List.drop_left]
    simp only [List.map_cons, List.flatten_cons, List.length_cons, readU32s,
      List.append_assoc, htake, hdrop]
    rw [leVal_u32le, Nat.mod_eq_of_lt (hx x (by simp)),
      ih (fun y hy => hx y (by simp [hy]))]

theorem Write_take_header (ts : Nat) (records : List Bytes) :
    (Write ts records).take 32 = headerBytesOf ts records.length := by
  rw [Write, List.append_assoc,
    show (32 : Nat) = (headerBytesOf ts records.length).length from
      (headerBytesOf_length ts records.length).symm, List.take_left]

theorem Write_drop_32 (ts : Nat) (records : List Bytes) :
    (Write ts records).drop 32 =
      ((buildRecordIndexes 0 records).map u32le).flatten ++ records.flatten := by
  rw [Write, List.append_assoc,
    show (32 : Nat) = (headerBytesOf ts records.length).length from
      (headerBytesOf_length ts records.length).symm, List.drop_left]

end recordbatch

theorem startsFrom_le {α : Type} (off : Nat) (l : List (List α)) :
    ∀ x ∈ startsFrom off l, x ≤ off + totalLen l := by
  induction l generalizing off with
  | nil => simp [startsFrom]
  | cons b bs ih =>
    intro x hx
    rw [totalLen_cons]
    simp only [startsFrom, List.mem_cons] at hx
    rcases hx with rfl | hx
    · omega
    · have := ih (off + b.length) x hx
      omega

theorem extract_at {α : Type} (L P T S : List α) (hL : L = P ++ (T ++ S))
    (n k : Nat) (hn : n = P.length) (hk : k = T.length) :
    (L.drop n).take k = T := by
  subst hL hn hk
  rw [List.drop_left, List.take_left]

namespace recordbatch

theorem leVal_u64le (n : Nat) : leVal (u64le n) = n % 2 ^ 64 := by
  simp only [u64le, leVal, List.foldr_cons, List.foldr_nil]
  omega

theorem leVal_u16le_version : leVal (u16le FileFormatVersion) = FileFormatVersion := rfl

theorem Write_assoc4 (ts : Nat) (records : List Bytes) :
    Write ts records = FileFormatMagicBytes ++
      ((u16le FileFormatVersion ++ u64le ts ++ u32le records.length ++
        List.replicate 14 0 ++ ((buildRecordIndexes 0 records).map u32le).flatten ++
        records.flatten)) := by
  simp [Write, headerBytesOf, List.append_assoc]

theorem Write_take4 (ts : Nat) (records : List Bytes) :
    (Write ts records).take 4 = FileFormatMagicBytes := by
  have := Write_assoc4 ts records
  rw [this, show (4 : Nat) = FileFormatMagicBytes.length from rfl, List.take_left]

theorem Write_drop4_take2 (ts : Nat) (records : List Bytes) :
    ((Write ts records).drop 4).take 2 = u16le FileFormatVersion := by
  refine extract_at _ (FileFormatMagicBytes) (u16le FileFormatVersion)
    (u64le ts ++ u32le records.length ++ List.replicate 14 0 ++
      ((buildRecordIndexes 0 records).map u32le).flatten ++ records.flatten)
    ?_ 4 2 rfl rfl
  simp [Write, headerBytesOf, List.append_assoc]

theorem Write_drop6_take8 (ts : Nat) (records : List Bytes) :
    ((Write ts records).drop 6).take 8 = u64le ts := by
  refine extract_at _ (FileFormatMagicBytes ++ u16le FileFormatVersion) (u64le ts)
    (u32le records.length ++ List.replicate 14 0 ++
      ((buildRecordIndexes 0 records).map u32le).flatten ++ records.flatten)
    ?_ 6 8 rfl rfl
  simp [Write, headerBytesOf, List.append_assoc]

theorem Write_drop14_take4 (ts : Nat) (records : List Bytes) :
    ((Write ts records).drop 14).take 4 = u32le records.length := by
  refine extract_at _ (FileFormatMagicBytes ++ u16le FileFormatVersion ++ u64le ts)
    (u32le records.length)
    (List.replicate 14 0 ++ ((buildRecordIndexes 0 records).map u32le).flatten ++
      records.flatten)
    ?_ 14 4 rfl rfl
  simp [Write, headerBytesOf, List.append_assoc]

theorem Write_drop18_take14 (ts : Nat) (records : List Bytes) :
    ((Write ts records).drop 18).take 14 = List.replicate 14 0 := by
  refine extract_at _
    (FileFormatMagicBytes ++ u16le FileFormatVersion ++ u64le ts ++ u32le records.length)
    (List.replicate 14 0)
    (((buildRecordIndexes 0 records).map u32le).flatten ++ records.flatten)
    ?_ 18 14 rfl rfl
  simp [Write, headerBytesOf, List.append_assoc]

theorem Write_drop_payload (ts : Nat) (records : List Bytes) :
    (Write ts records).drop (32 + 4 * records.length) = records.flatten := by
  have hP : Write ts records =
      (headerBytesOf ts records.length ++
        ((buildRecordIndexes 0 records).map u32le).flatten) ++ records.flatten := by
    simp [Write, List.append_assoc]
  have hlenP : (headerBytesOf ts records.length ++
      ((buildRecordIndexes 0 records).map u32le).flatten).length =
      32 + 4 * records.length := by
    rw [List.length_append, headerBytesOf_length, map_u32le_flatten_length,
      buildRecordIndexes_length]
  rw [hP, ← hlenP, List.drop_left]

theorem Parse_Write (ts : Nat) (records : List Bytes)
    (h : 32 + 4 * records.length + totalLen records < 2 ^ 32) :
    Parse (Write ts records) = some
      { header :=
          { magicBytes := FileFormatMagicBytes
            version := FileFormatVersion
            unixEpochUs := ts % 2 ^ 64
            numRecords := records.length }
        recordIndex := startsFrom 0 records
        data := Write ts records } := by
  have hN : records.length < 2 ^ 32 := by omega
  have hlen := Write_length ts records
  have hnum : leVal (((Write ts records).drop 14).take 4) = records.length := by
    rw [Write_drop14_take4, leVal_u32le, Nat.mod_eq_of_lt hN]
  have hidx : readU32s records.length ((Write ts records).drop 32) =
      startsFrom 0 records := by
    rw [Write_drop_32, buildRecordIndexes_eq_startsFrom 0 records (by omega)]
    rw [show records.length = (startsFrom 0 records).length from
      (startsFrom_length 0 records).symm]
    refine readU32s_map_u32le _ _ ?_
    intro x hx
    have := startsFrom_le 0 records x hx
    omega
  have hver : leVal (((Write ts records).drop 4).take 2) = FileFormatVersion := by
    rw [Write_drop4_take2, leVal_u16le_version]
  have hts : leVal (((Write ts records).drop 6).take 8) = ts % 2 ^ 64 := by
    rw [Write_drop6_take8, leVal_u64le]
  unfold Parse
  rw [if_neg (by omega)]
  simp only [hnum, List.length_drop, hlen]
  rw [if_neg (by omega)]
  rw [Write_take4, hver, hts, hidx]

theorem drop_add_of_drop_eq {α : Type} (L M : List α) (m : Nat)
    (hLM : L.drop m = M) (k : Nat) : L.drop (m + k) = M.drop k := by
  subst hLM
  rw [List.drop_drop]

theorem Record_Write (ts : Nat) (records : List Bytes) (i : Nat)
    (h : 32 + 4 * records.length + totalLen records < 2 ^ 32)
    (hi : i < records.length) :
    (RecordBatch.mk
      (Header.mk FileFormatMagicBytes FileFormatVersion (ts % 2 ^ 64) records.length)
      (startsFrom 0 records) (Write ts records)).Record i =
      .ok (records.getD i []) := by
  have hstart : (startsFrom 0 records).getD i 0 = startOf records i := by
    rw [startsFrom_getD 0 records i hi]
    omega
  have hstartle := startOf_le_totalLen records i
  have hsucc := startOf_succ_getD records i hi
  have hsuccle := startOf_le_totalLen records (i + 1)
  have hfo : (32 + records.length * 4 + startOf records i) % 2 ^ 32 =
      32 + 4 * records.length + startOf records i := by
    omega
  have hdropPay : (Write ts records).drop (32 + 4 * records.length + startOf records i) =
      records.flatten.drop (startOf records i) :=
    drop_add_of_drop_eq _ _ _ (Write_drop_payload ts records) _
  have hflat := flatten_drop_startOf records i hi
  unfold RecordBatch.Record
  dsimp only
  rw [if_neg (by omega), hstart, hfo, hdropPay, hflat, startsFrom_length]
  by_cases hlast : i = records.length - 1
  · rw [if_pos hlast]
    have h1 : i + 1 = records.length := by omega
    simp [h1, List.drop_length]
  · rw [if_neg hlast]
    have hi1 : i + 1 < records.length := by omega
    have hstart1 : (startsFrom 0 records).getD (i + 1) 0 = startOf records (i + 1) := by
      rw [startsFrom_getD 0 records (i + 1) hi1]
      omega
    rw [hstart1]
    have hsize : (startOf records (i + 1) + 2 ^ 32 - startOf records i) % 2 ^ 32 =
        (records.getD i []).length := by
      rw [hsucc]
      omega
    rw [hsize]
    rw [if_neg (by simp)]
    rw [List.take_left' rfl]

end recordbatch

/-! ### Decimal rendering and path parsing -/

theorem decDigitsAux_lt10 : ∀ fuel n, ∀ d ∈ decDigitsAux fuel n, d < 10 := by
  intro fuel
  induction fuel with
  | zero => intro n d hd; simp [decDigitsAux] at hd
  | succ fuel ih =>
    intro n d hd
    cases n with
    | zero => simp [decDigitsAux] at hd
    | succ m =>
      simp only [decDigitsAux, List.mem_cons] at hd
      rcases hd with rfl | hd
      · omega
      · exact ih ((m + 1) / 10) d hd

theorem decDigitsAux_val : ∀ fuel n, n ≤ fuel →
    (decDigitsAux fuel n).foldr (fun d acc => d + 10 * acc) 0 = n := by
  intro fuel
  induction fuel with
  | zero => intro n hn; interval_cases n; rfl
  | succ fuel ih =>
    intro n hn
    cases n with
    | zero => rfl
    | succ m =>
      simp only [decDigitsAux, List.foldr_cons]
      have hdiv : (m + 1) / 10 ≤ fuel := by
        have := Nat.div_lt_self (Nat.succ_pos m) (by omega : 1 < 10)
        omega
      rw [ih ((m + 1) / 10) hdiv]
      omega

theorem parse_fold (ds : List Nat) (hds : ∀ d ∈ ds, d < 10) (a : Nat) :
    (ds.reverse.map (fun d => 48 + d)).foldl (fun acc c => 10 * acc + (c - 48)) a =
      a * 10 ^ ds.length + ds.foldr (fun d acc => d + 10 * acc) 0 := by
  induction ds generalizing a with
  | nil => simp
  | cons d ds ih =>
    simp only [List.reverse_cons, List.map_append, List.map_cons, List.map_nil,
      List.foldl_append, List.foldl_cons, List.foldl_nil, List.length_cons,
      List.foldr_cons]
    rw [ih (fun x hx => hds x (by simp [hx])) a]
    have hd : d < 10 := hds d (by simp)
    have : 48 + d - 48 = d := by omega
    rw [this, pow_succ]
    ring

theorem foldl_zeros (k : Nat) (a0 : Nat) (h : a0 = 0) :
    (List.replicate k 48).foldl (fun acc c => 10 * acc + (c - 48)) a0 = 0 := by
  subst h
  induction k with
  | zero => rfl
  | succ k ih =>
    rw [List.replicate_succ, List.foldl_cons]
    simpa using ih

theorem decDigits_lt10 (n : Nat) : ∀ d ∈ decDigits n, d < 10 :=
  decDigitsAux_lt10 n n

theorem decDigits_val (n : Nat) :
    (decDigits n).foldr (fun d acc => d + 10 * acc) 0 = n :=
  decDigitsAux_val n n (Nat.le_refl n)

theorem pad12_length (n : Nat) :
    (pad12 n).length = (12 - (decDigits n).length) + (decDigits n).length := by
  simp [pad12]

theorem parseDecimal_pad12 (n : Nat) (hn : n < 2 ^ 64) :
    parseDecimal (pad12 n) = some n := by
  have hne : (pad12 n).isEmpty = false := by
    have hlen := pad12_length n
    cases hp : pad12 n with
    | nil => rw [hp] at hlen; simp at hlen; omega
    | cons c cs => rfl
  have hall : (pad12 n).all (fun c => decide (48 ≤ c ∧ c ≤ 57)) = true := by
    rw [List.all_eq_true]
    intro c hc
    rw [decide_eq_true_eq]
    simp only [pad12, List.mem_append, List.mem_replicate, List.mem_map] at hc
    rcases hc with ⟨_, rfl⟩ | ⟨d, hd, rfl⟩
    · omega
    · have := decDigits_lt10 n d (List.mem_reverse.mp hd)
      omega
  have hval : (pad12 n).foldl (fun acc c => 10 * acc + (c - 48)) 0 = n := by
    rw [pad12, List.foldl_append, foldl_zeros _ _ rfl,
      parse_fold (decDigits n) (decDigits_lt10 n) 0, decDigits_val]
    omega
  unfold parseDecimal
  rw [hne]
  simp only [Bool.false_eq_true, if_false, hall, if_true, hval, if_pos hn]

theorem pad12_no_slash (n : Nat) : ∀ c ∈ pad12 n, c ≠ 47 := by
  intro c hc
  simp only [pad12, List.mem_append, List.mem_replicate, List.mem_map] at hc
  rcases hc with ⟨_, rfl⟩ | ⟨d, _, rfl⟩ <;> omega

theorem recordBatchExtension_no_slash : ∀ c ∈ recordBatchExtension, c ≠ 47 := by
  decide

theorem pathBase_recordBatchPath (tp : FPath) (id : Nat) :
    pathBase (recordBatchPath tp id) = pad12 id ++ recordBatchExtension := by
  have hassoc : recordBatchPath tp id =
      (tp ++ [47]) ++ (pad12 id ++ recordBatchExtension) := by
    simp [recordBatchPath, List.append_assoc]
  unfold pathBase
  rw [hassoc, List.reverse_append]
  have hno : ∀ c ∈ (pad12 id ++ recordBatchExtension).reverse,
      (c ≠ 47 : Bool) = true := by
    intro c hc
    rw [List.mem_reverse, List.mem_append] at hc
    rcases hc with hc | hc
    · simpa using pad12_no_slash id c hc
    · simpa using recordBatchExtension_no_slash c hc
  rw [takeWhile_append_all _ _ _ hno]
  have h47 : (tp ++ [47]).reverse = 47 :: tp.reverse := by
    simp
  rw [h47]
  simp [List.takeWhile_cons]

theorem parseRecordBatchID_path (tp : FPath) (id : Nat) (hid : id < 2 ^ 64) :
    parseRecordBatchID (recordBatchPath tp id) = some id := by
  show parseDecimal ((pathBase (recordBatchPath tp id)).take
    ((pathBase (recordBatchPath tp id)).length - recordBatchExtension.length)) = some id
  rw [pathBase_recordBatchPath]
  have hlen : (pad12 id ++ recordBatchExtension).length - recordBatchExtension.length =
      (pad12 id).length := by
    rw [List.length_append]
    omega
  rw [hlen, List.take_left]
  exact parseDecimal_pad12 id hid

theorem recordBatchPath_inj (tp : FPath) (a b : Nat) (ha : a < 2 ^ 64)
    (hb : b < 2 ^ 64) (h : recordBatchPath tp a = recordBatchPath tp b) : a = b := by
  have h1 := parseRecordBatchID_path tp a ha
  have h2 := parseRecordBatchID_path tp b hb
  rw [h] at h1
  rw [h2] at h1
  exact (Option.some_inj.mp h1).symm

theorem listRecordBatchIDs_map (tp : FPath) (ids : List Nat)
    (h : ∀ id ∈ ids, id < 2 ^ 64) :
    listRecordBatchIDs (ids.map (recordBatchPath tp)) = some ids := by
  induction ids with
  | nil => rfl
  | cons id ids ih =>
    have hid := parseRecordBatchID_path tp id (h id (by simp))
    have hids := ih (fun x hx => h x (by simp [hx]))
    show (match parseRecordBatchID (recordBatchPath tp id),
        listRecordBatchIDs (ids.map (recordBatchPath tp)) with
      | some i, some l => some (i :: l)
      | _, _ => none) = some (id :: ids)
    rw [hid, hids]

/-! ### Coordinator lemmas -/

theorem getD_mem {α : Type} (l : List α) (j : Nat) (d : α) (h : j < l.length) :
    l.getD j d ∈ l := by
  induction l generalizing j with
  | nil => simp at h
  | cons a l ih =>
    cases j with
    | zero => simp
    | succ k =>
      have hk : k < l.length := by simpa using h
      simp only [List.getD_cons_succ]
      exact List.mem_cons_of_mem a (ih k hk)

theorem startOf_mono {α : Type} (l : List (List α)) :
    ∀ k1 k2, k1 ≤ k2 → startOf l k1 ≤ startOf l k2 := by
  induction l with
  | nil => intro k1 k2 _; simp [startOf]
  | cons b rest ih =>
    intro k1 k2 h12
    cases k1 with
    | zero => simp [startOf_zero]
    | succ m1 =>
      cases k2 with
      | zero => omega
      | succ m2 =>
        rw [startOf_cons_succ, startOf_cons_succ]
        have := ih m1 m2 (by omega)
        omega

theorem startsFrom_mem {α : Type} (off : Nat) (l : List (List α)) (j : Nat)
    (h : j < l.length) : off + startOf l j ∈ startsFrom off l := by
  induction l generalizing off j with
  | nil => simp at h
  | cons b rest ih =>
    cases j with
    | zero => simp [startsFrom, startOf_zero]
    | succ m =>
      have hm : m < rest.length := by simpa using h
      rw [startOf_cons_succ]
      have := ih (off + b.length) m hm
      simp only [startsFrom, List.mem_cons]
      right
      have heq : off + (b.length + startOf rest m) = off + b.length + startOf rest m := by
        omega
      rw [heq]
      exact this

theorem startsFrom_shape {α : Type} (off : Nat) (l : List (List α)) :
    ∀ x ∈ startsFrom off l, ∃ k, k < l.length ∧ x = off + startOf l k := by
  induction l generalizing off with
  | nil => simp [startsFrom]
  | cons b rest ih =>
    intro x hx
    simp only [startsFrom, List.mem_cons] at hx
    rcases hx with rfl | hx
    · exact ⟨0, by simp, by simp [startOf_zero]⟩
    · obtain ⟨k, hk, rfl⟩ := ih (off + b.length) x hx
      refine ⟨k + 1, by simpa using hk, ?_⟩
      rw [startOf_cons_succ]
      omega

theorem addedFiles_keys (ts : Nat) (tp : FPath) (bs : List (List Bytes)) :
    ∀ (off : Nat), ∀ pr ∈ addedFiles ts tp off bs,
      ∃ id, off ≤ id ∧ id ≤ off + totalLen bs ∧ pr.1 = recordBatchPath tp id := by
  induction bs with
  | nil => intro off pr hpr; simp [addedFiles] at hpr
  | cons b rest ih =>
    intro off pr hpr
    simp only [addedFiles, List.mem_append, List.mem_singleton] at hpr
    rcases hpr with hpr | rfl
    · obtain ⟨id, h1, h2, h3⟩ := ih (off + b.length) pr hpr
      exact ⟨id, by omega, by rw [totalLen_cons]; omega, h3⟩
    · exact ⟨off, Nat.le_refl off, by omega, rfl⟩

theorem lookup_addedFiles (ts : Nat) (tp : FPath) (bs : List (List Bytes)) :
    ∀ (off j : Nat) (files0 : Files),
    (∀ b ∈ bs, b ≠ []) → off + totalLen bs < 2 ^ 64 → j < bs.length →
    lookupFile (addedFiles ts tp off bs ++ files0)
        (recordBatchPath tp (off + startOf bs j)) =
      some (recordbatch.Write ts (bs.getD j [])) := by
  induction bs with
  | nil => intro off j files0 _ _ hj; simp at hj
  | cons b rest ih =>
    intro off j files0 hne hbound hj
    have hlb : 1 ≤ b.length := by
      have := hne b (by simp)
      cases b
      · simp at this
      · simp
    rw [totalLen_cons] at hbound
    cases j with
    | zero =>
      simp only [startOf_zero, Nat.add_zero, List.getD_cons_zero]
      have hassoc : addedFiles ts tp off (b :: rest) ++ files0 =
          addedFiles ts tp (off + b.length) rest ++
            ((recordBatchPath tp off, recordbatch.Write ts b) :: files0) := by
        simp [addedFiles, List.append_assoc]
      rw [hassoc]
      have hnone : lookupFile (addedFiles ts tp (off + b.length) rest)
          (recordBatchPath tp off) = none := by
        refine lookupFile_eq_none _ _ ?_
        intro pr hpr
        obtain ⟨id, h1, h2, h3⟩ := addedFiles_keys ts tp rest (off + b.length) pr hpr
        rw [h3]
        intro hcontra
        have := recordBatchPath_inj tp id off (by omega) (by omega) hcontra
        omega
      rw [lookupFile_append_of_none _ _ _ hnone]
      simp [lookupFile]
    | succ m =>
      have hm : m < rest.length := by simpa using hj
      rw [startOf_cons_succ]
      have heq : off + (b.length + startOf rest m) =
          (off + b.length) + startOf rest m := by omega
      rw [heq, List.getD_cons_succ]
      have hassoc : addedFiles ts tp off (b :: rest) ++ files0 =
          addedFiles ts tp (off + b.length) rest ++
            ((recordBatchPath tp off, recordbatch.Write ts b) :: files0) := by
        simp [addedFiles, List.append_assoc]
      rw [hassoc]
      exact ih (off + b.length) m _ (fun x hx => hne x (by simp [hx])) (by omega) hm

theorem locate (bs : List (List Bytes)) :
    ∀ (off i : Nat), (∀ b ∈ bs, b ≠ []) → off ≤ i → i < off + totalLen bs →
    ∃ j, j < bs.length ∧
      scanBack (startsFrom off bs).reverse i = off + startOf bs j ∧
      off + startOf bs j ≤ i ∧
      i < off + startOf bs j + (bs.getD j []).length := by
  induction bs with
  | nil => intro off i _ h1 h2; simp [totalLen] at h2; omega
  | cons b rest ih =>
    intro off i hne hle hlt
    rw [totalLen_cons] at hlt
    simp only [startsFrom, List.reverse_cons]
    by_cases hfirst : i < off + b.length
    · refine ⟨0, by simp, ?_, by simpa [startOf_zero], by simpa [startOf_zero]⟩
      rw [scanBack_all_gt _ _ i ?_]
      · simp only [scanBack, if_pos hle, startOf_zero, Nat.add_zero]
      · intro x hx
        have := startsFrom_ge (off + b.length) rest x (List.mem_reverse.mp hx)
        omega
    · have hge : off + b.length ≤ i := by omega
      have hrest : rest ≠ [] := by
        intro hcontra
        rw [hcontra] at hlt
        simp [totalLen] at hlt
        omega
      obtain ⟨j', hj', hscan, hlo, hhi⟩ :=
        ih (off + b.length) i (fun x hx => hne x (by simp [hx])) hge (by omega)
      refine ⟨j' + 1, by simpa using hj', ?_, ?_, ?_⟩
      · rw [scanBack_append_of_any _ _ i ?_]
        · rw [hscan, startOf_cons_succ]
          omega
        · refine ⟨off + b.length, ?_, hge⟩
          rw [List.mem_reverse]
          cases rest with
          | nil => exact absurd rfl hrest
          | cons r rr => simp [startsFrom]
      · rw [startOf_cons_succ]; omega
      · rw [startOf_cons_succ, List.getD_cons_succ]; omega

theorem AddRecordBatch_ok (ts : Nat) (s : Storage) (files : Files)
    (records : List Bytes)
    (hlook : lookupFile files (recordBatchPath s.topicPath s.nextRecordID) = none)
    (hbound : s.nextRecordID + records.length < 2 ^ 64) :
    s.AddRecordBatch ts files records = .ok
      ({ s with
          recordBatchIDs := s.recordBatchIDs ++ [s.nextRecordID]
          nextRecordID := s.nextRecordID + records.length },
       (recordBatchPath s.topicPath s.nextRecordID,
        recordbatch.Write ts records) :: files) := by
  unfold Storage.AddRecordBatch
  dsimp only
  rw [hlook]
  simp only [Option.isSome_none, Bool.false_eq_true, if_false]
  rw [Nat.mod_eq_of_lt hbound]

theorem runAdds_ok (ts : Nat) (bs : List (List Bytes)) :
    ∀ (s : Storage) (files : Files),
    (∀ b ∈ bs, b ≠ []) →
    s.nextRecordID + totalLen bs < 2 ^ 64 →
    (∀ m, s.nextRecordID ≤ m → m < 2 ^ 64 →
      lookupFile files (recordBatchPath s.topicPath m) = none) →
    runAdds ts s files bs = .ok
      ({ topicPath := s.topicPath
         nextRecordID := s.nextRecordID + totalLen bs
         recordBatchIDs := s.recordBatchIDs ++ startsFrom s.nextRecordID bs },
       addedFiles ts s.topicPath s.nextRecordID bs ++ files) := by
  induction bs with
  | nil =>
    intro s files _ _ _
    simp [runAdds, totalLen, startsFrom, addedFiles]
  | cons b rest ih =>
    intro s files hne hbound hfresh
    have hlb : 1 ≤ b.length := by
      have := hne b (by simp)
      cases b
      · simp at this
      · simp
    rw [totalLen_cons] at hbound
    have hadd := AddRecordBatch_ok ts s files b
      (hfresh s.nextRecordID (Nat.le_refl _) (by omega)) (by omega)
    simp only [runAdds, hadd]
    have hih := ih
      { s with
        recordBatchIDs := s.recordBatchIDs ++ [s.nextRecordID]
        nextRecordID := s.nextRecordID + b.length }
      ((recordBatchPath s.topicPath s.nextRecordID,
        recordbatch.Write ts b) :: files)
      (fun x hx => hne x (by simp [hx]))
      (by show s.nextRecordID + b.length + totalLen rest < 2 ^ 64; omega)
      ?_
    · rw [hih]
      have h1 : s.nextRecordID + b.length + totalLen rest =
          s.nextRecordID + totalLen (b :: rest) := by
        rw [totalLen_cons]; omega
      have h2 : (s.recordBatchIDs ++ [s.nextRecordID]) ++
          startsFrom (s.nextRecordID + b.length) rest =
          s.recordBatchIDs ++ startsFrom s.nextRecordID (b :: rest) := by
        rw [List.append_assoc, List.singleton_append]
        rfl
      have h3 : addedFiles ts s.topicPath (s.nextRecordID + b.length) rest ++
          ((recordBatchPath s.topicPath s.nextRecordID,
            recordbatch.Write ts b) :: files) =
          addedFiles ts s.topicPath s.nextRecordID (b :: rest) ++ files := by
        simp [addedFiles, List.append_assoc]
      rw [h1, h2, h3]
    · intro m hm hmlt
      have hm' : s.nextRecordID + b.length ≤ m := hm
      show lookupFile ((recordBatchPath s.topicPath s.nextRecordID,
        recordbatch.Write ts b) :: files) (recordBatchPath s.topicPath m) = none
      simp only [lookupFile]
      rw [if_neg ?_]
      · exact hfresh m (by omega) hmlt
      · intro hcontra
        have := recordBatchPath_inj s.topicPath s.nextRecordID m (by omega) hmlt hcontra
        omega

theorem findBatchID_startsFrom (bs : List (List Bytes)) (i : Nat)
    (hne : ∀ b ∈ bs, b ≠ []) (hi : i < totalLen bs) :
    ∃ j, j < bs.length ∧
      findBatchID (startsFrom 0 bs) i = startOf bs j ∧
      startOf bs j ≤ i ∧ i < startOf bs j + (bs.getD j []).length := by
  obtain ⟨j, hj, hscan, hlo, hhi⟩ := locate bs 0 i hne (Nat.zero_le i) (by omega)
  refine ⟨j, hj, ?_, by omega, by omega⟩
  show scanBack (startsFrom 0 bs).reverse i = startOf bs j
  rw [hscan]
  omega

theorem findBatchID_greatest (bs : List (List Bytes)) (i : Nat)
    (hne : ∀ b ∈ bs, b ≠ []) (hi : i < totalLen bs) :
    findBatchID (startsFrom 0 bs) i ∈ startsFrom 0 bs ∧
    findBatchID (startsFrom 0 bs) i ≤ i ∧
    ∀ x ∈ startsFrom 0 bs, x ≤ i → x ≤ findBatchID (startsFrom 0 bs) i := by
  obtain ⟨j, hj, hfind, hlo, hhi⟩ := findBatchID_startsFrom bs i hne hi
  rw [hfind]
  refine ⟨?_, hlo, ?_⟩
  · have := startsFrom_mem 0 bs j hj
    simpa using this
  · intro x hx hxi
    obtain ⟨k, hk, rfl⟩ := startsFrom_shape 0 bs x hx
    simp only [Nat.zero_add] at hxi ⊢
    by_cases hkj : k ≤ j
    · exact startOf_mono bs k j hkj
    · have h1 : j + 1 ≤ k := by omega
      have h2 := startOf_mono bs (j + 1) k h1
      rw [startOf_succ_getD bs j hj] at h2
      omega

theorem ReadRecordSt_final (ts : Nat) (tp : FPath) (bs : List (List Bytes))
    (files0 : Files) (i : Nat)
    (hne : ∀ b ∈ bs, b ≠ [])
    (hsz : ∀ b ∈ bs, 32 + 4 * b.length + totalLen b < 2 ^ 32)
    (htot : totalLen bs < 2 ^ 64)
    (hi : i < totalLen bs) :
    Storage.ReadRecordSt
      { topicPath := tp, nextRecordID := totalLen bs,
        recordBatchIDs := startsFrom 0 bs }
      (addedFiles ts tp 0 bs ++ files0) i =
      (.ok (bs.flatten.getD i []),
       { topicPath := tp, nextRecordID := totalLen bs,
         recordBatchIDs := startsFrom 0 bs }) := by
  obtain ⟨j, hj, hfind, hlo, hhi⟩ := findBatchID_startsFrom bs i hne hi
  have hbj : bs.getD j [] ∈ bs := getD_mem bs j [] hj
  have hszj := hsz _ hbj
  have hlenj : (bs.getD j []).length < 2 ^ 32 := by omega
  have hlook := lookup_addedFiles ts tp bs 0 j files0 hne (by omega) hj
  rw [Nat.zero_add] at hlook
  have hparse := recordbatch.Parse_Write ts (bs.getD j []) hszj
  have hk : ((i + 2 ^ 64 - startOf bs j) % 2 ^ 64) % 2 ^ 32 = i - startOf bs j := by
    omega
  have hrec := recordbatch.Record_Write ts (bs.getD j []) (i - startOf bs j)
    hszj (by omega)
  have hflat : bs.flatten.getD i [] = (bs.getD j []).getD (i - startOf bs j) [] := by
    have hfg := flatten_getD bs j (i - startOf bs j) [] hj (by omega)
    rw [show startOf bs j + (i - startOf bs j) = i by omega] at hfg
    exact hfg
  unfold Storage.ReadRecordSt
  dsimp only
  rw [if_neg (by omega)]
  rw [show findBatchID (startsFrom 0 bs) i = startOf bs j from hfind]
  simp only [hlook, hparse]
  rw [hk]
  rw [hrec]
  rw [hflat]

theorem chain'_lt_le_getLast (l : List Nat) (hchain : List.Chain' (· < ·) l) :
    ∀ x ∈ l, x ≤ l.getLast?.getD 0 := by
  induction l with
  | nil => simp
  | cons a rest ih =>
    intro x hx
    cases rest with
    | nil => simp at hx; simp [hx]
    | cons r rr =>
      rw [List.chain'_cons] at hchain
      rw [List.getLast?_cons_cons]
      rcases List.mem_cons.mp hx with rfl | hx'
      · have hr := ih hchain.2 r (by simp)
        omega
      · exact ih hchain.2 x hx'

theorem runAdds_chain (ts : Nat) (bs : List (List Bytes)) :
    ∀ (s : Storage) (files : Files) (s' : Storage) (files' : Files),
    runAdds ts s files bs = .ok (s', files') →
    s.nextRecordID + totalLen bs < 2 ^ 64 →
    List.Chain' (· < ·) s.recordBatchIDs →
    (∀ id ∈ s.recordBatchIDs, id ≤ s.nextRecordID ∧
      (lookupFile files (recordBatchPath s.topicPath id)).isSome) →
    List.Chain' (· < ·) s'.recordBatchIDs ∧
    (∃ newIDs, s'.recordBatchIDs = s.recordBatchIDs ++ newIDs ∧
      (newIDs = [] ↔ bs = []) ∧
      (bs ≠ [] → newIDs.head? = some s.nextRecordID)) := by
  induction bs with
  | nil =>
    intro s files s' files' hrun _ hchain _
    simp only [runAdds, Except.ok.injEq, Prod.mk.injEq] at hrun
    obtain ⟨h1, h2⟩ := hrun
    subst h1
    exact ⟨hchain, [], by simp, by simp, by simp⟩
  | cons b rest ih =>
    intro s files s' files' hrun hbound hchain hinv
    rw [totalLen_cons] at hbound
    by_cases hlk : (lookupFile files
        (recordBatchPath s.topicPath s.nextRecordID)).isSome
    · exfalso
      have hadd : s.AddRecordBatch ts files b = .error .alreadyExists := by
        unfold Storage.AddRecordBatch
        dsimp only
        rw [if_pos hlk]
      simp only [runAdds, hadd] at hrun
      exact Except.noConfusion hrun
    · have hnone : lookupFile files
          (recordBatchPath s.topicPath s.nextRecordID) = none :=
        Option.not_isSome_iff_eq_none.mp hlk
      have hadd := AddRecordBatch_ok ts s files b hnone (by omega)
      simp only [runAdds, hadd] at hrun
      have hlast : ∀ x, s.recordBatchIDs.getLast? = some x → x < s.nextRecordID := by
        intro x hx
        have hxmem : x ∈ s.recordBatchIDs := by
          obtain ⟨hne2, heq⟩ := List.mem_getLast?_eq_getLast (Option.mem_def.mpr hx)
          rw [heq]
          exact List.getLast_mem hne2
        obtain ⟨hxle, hxsome⟩ := hinv x hxmem
        rcases Nat.lt_or_ge x s.nextRecordID with h | h
        · exact h
        · exfalso
          have hxeq : x = s.nextRecordID := by omega
          rw [hxeq] at hxsome
          rw [hnone] at hxsome
          simp at hxsome
      have hchain1 : List.Chain' (· < ·)
          (s.recordBatchIDs ++ [s.nextRecordID]) := by
        rw [List.chain'_append]
        refine ⟨hchain, List.chain'_singleton _, ?_⟩
        intro x hx y hy
        simp only [List.head?_cons, Option.mem_def, Option.some.injEq] at hy
        subst hy
        exact hlast x hx
      have hinv1 : ∀ id ∈ s.recordBatchIDs ++ [s.nextRecordID],
          id ≤ s.nextRecordID + b.length ∧
          (lookupFile ((recordBatchPath s.topicPath s.nextRecordID,
            recordbatch.Write ts b) :: files)
            (recordBatchPath s.topicPath id)).isSome := by
        intro id hid
        rcases List.mem_append.mp hid with hid | hid
        · obtain ⟨h1, h2⟩ := hinv id hid
          exact ⟨by omega, lookupFile_cons_isSome _ _ _ _ h2⟩
        · simp only [List.mem_singleton] at hid
          subst hid
          refine ⟨by omega, ?_⟩
          simp [lookupFile]
      obtain ⟨hchain', newIDs', hids', hiff', hhead'⟩ :=
        ih _ _ s' files' hrun
          (by show s.nextRecordID + b.length + totalLen rest < 2 ^ 64; omega)
          hchain1 hinv1
      refine ⟨hchain', s.nextRecordID :: newIDs', ?_, by simp, by simp⟩
      rw [hids']
      simp [List.append_assoc]

/-! ### Claim theorems -/

/-- C1: storage round-trip.  For every sequence of successful `AddRecordBatch`
calls with non-empty record lists on a coordinator constructed over empty
storage, and for every `i` less than the total number of records submitted,
`ReadRecord i` returns exactly the bytes of the `i`-th record in submission
order (batches in commit order, records in arrival order within each batch);
the batch used is the one whose ID is the greatest element of
`recordBatchIDs` that is `≤ i` (the intra-batch offset `i − batchID` is what
`ReadRecord` passes to `Record`, by definition).  The arithmetic hypotheses
keep each batch file inside the `uint32` index range and the record count
inside `uint64`, the ranges the Go code computes in. -/
theorem storage_roundtrip (ts : Nat) (rootDir topic : FPath)
    (batches : List (List Bytes)) (i : Nat)
    (hne : ∀ b ∈ batches, b ≠ [])
    (hsz : ∀ b ∈ batches, 32 + 4 * b.length + totalLen b < 2 ^ 32)
    (htot : totalLen batches < 2 ^ 64)
    (hi : i < totalLen batches) :
    ∃ s files,
      NewStorage [] [] rootDir topic =
        .ok { topicPath := rootDir ++ [47] ++ topic, nextRecordID := 0,
              recordBatchIDs := [] } ∧
      runAdds ts { topicPath := rootDir ++ [47] ++ topic, nextRecordID := 0,
                   recordBatchIDs := [] } [] batches = .ok (s, files) ∧
      s.nextRecordID = totalLen batches ∧
      s.ReadRecord files i = .ok (batches.flatten.getD i []) ∧
      findBatchID s.recordBatchIDs i ∈ s.recordBatchIDs ∧
      findBatchID s.recordBatchIDs i ≤ i ∧
      (∀ x ∈ s.recordBatchIDs, x ≤ i → x ≤ findBatchID s.recordBatchIDs i) := by
  have hrun := runAdds_ok ts batches
    { topicPath := rootDir ++ [47] ++ topic, nextRecordID := 0, recordBatchIDs := [] }
    [] hne (by show (0 : Nat) + totalLen batches < 2 ^ 64; omega)
    (fun m _ _ => rfl)
  simp only [Nat.zero_add, List.nil_append, List.append_nil] at hrun
  refine ⟨{ topicPath := rootDir ++ [47] ++ topic, nextRecordID := totalLen batches,
            recordBatchIDs := startsFrom 0 batches },
          addedFiles ts (rootDir ++ [47] ++ topic) 0 batches, rfl, ?_, rfl, ?_, ?_, ?_, ?_⟩
  · exact hrun
  · show (Storage.ReadRecordSt _ _ i).1 = _
    have hfin := ReadRecordSt_final ts (rootDir ++ [47] ++ topic) batches [] i
      hne hsz htot hi
    simp only [List.append_nil] at hfin
    rw [hfin]
  · exact (findBatchID_greatest batches i hne hi).1
  · exact (findBatchID_greatest batches i hne hi).2.1
  · exact (findBatchID_greatest batches i hne hi).2.2

/-- C1 witness: two batches of sizes 1 and 2 over an empty coordinator;
record 2 (the last record of the second batch) reads back. -/
theorem storage_roundtrip_witness :
    (∀ b ∈ ([[[65]], [[66], [67]]] : List (List Bytes)), b ≠ []) ∧
    (∀ b ∈ ([[[65]], [[66], [67]]] : List (List Bytes)),
      32 + 4 * b.length + totalLen b < 2 ^ 32) ∧
    totalLen ([[[65]], [[66], [67]]] : List (List Bytes)) < 2 ^ 64 ∧
    2 < totalLen ([[[65]], [[66], [67]]] : List (List Bytes)) ∧
    (∃ s files,
      NewStorage [] [] [114] [116] =
        .ok { topicPath := [114] ++ [47] ++ [116], nextRecordID := 0,
              recordBatchIDs := [] } ∧
      runAdds 0 { topicPath := [114] ++ [47] ++ [116], nextRecordID := 0,
                  recordBatchIDs := [] } [] [[[65]], [[66], [67]]] = .ok (s, files) ∧
      s.nextRecordID = totalLen ([[[65]], [[66], [67]]] : List (List Bytes)) ∧
      s.ReadRecord files 2 =
        .ok (([[[65]], [[66], [67]]] : List (List Bytes)).flatten.getD 2 []) ∧
      findBatchID s.recordBatchIDs 2 ∈ s.recordBatchIDs ∧
      findBatchID s.recordBatchIDs 2 ≤ 2 ∧
      (∀ x ∈ s.recordBatchIDs, x ≤ 2 → x ≤ findBatchID s.recordBatchIDs 2)) :=
  ⟨by decide, by decide, by decide, by decide,
   storage_roundtrip 0 [114] [116] [[[65]], [[66], [67]]] 2
     (by decide) (by decide) (by decide) (by decide)⟩

/-- C3: out-of-bounds error contract.  On every coordinator state reached by
successful `AddRecordBatch` calls over empty storage, the persisted record
count equals `nextRecordID`, and `ReadRecord recordID` fails with
`OutOfBounds` exactly when `recordID ≥ nextRecordID` (hence also for
`count + k` for every `k`); a fresh coordinator over an empty directory
yields `OutOfBounds` for `ReadRecord 0`. -/
theorem readRecord_outOfBounds_iff (ts : Nat) (rootDir topic : FPath)
    (batches : List (List Bytes))
    (hne : ∀ b ∈ batches, b ≠ [])
    (hsz : ∀ b ∈ batches, 32 + 4 * b.length + totalLen b < 2 ^ 32)
    (htot : totalLen batches < 2 ^ 64) :
    ∃ s files,
      runAdds ts { topicPath := rootDir ++ [47] ++ topic, nextRecordID := 0,
                   recordBatchIDs := [] } [] batches = .ok (s, files) ∧
      s.nextRecordID = totalLen batches ∧
      (∀ recordID, s.ReadRecord files recordID = .error .outOfBounds ↔
        s.nextRecordID ≤ recordID) ∧
      Storage.ReadRecord { topicPath := rootDir ++ [47] ++ topic,
                           nextRecordID := 0, recordBatchIDs := [] } [] 0 =
        .error .outOfBounds := by
  have hrun := runAdds_ok ts batches
    { topicPath := rootDir ++ [47] ++ topic, nextRecordID := 0, recordBatchIDs := [] }
    [] hne (by show (0 : Nat) + totalLen batches < 2 ^ 64; omega)
    (fun m _ _ => rfl)
  simp only [Nat.zero_add, List.nil_append, List.append_nil] at hrun
  refine ⟨{ topicPath := rootDir ++ [47] ++ topic, nextRecordID := totalLen batches,
            recordBatchIDs := startsFrom 0 batches },
          addedFiles ts (rootDir ++ [47] ++ topic) 0 batches, hrun, rfl, ?_, rfl⟩
  intro recordID
  by_cases hcase : totalLen batches ≤ recordID
  · constructor
    · intro _
      exact hcase
    · intro _
      show (Storage.ReadRecordSt _ _ recordID).1 = _
      unfold Storage.ReadRecordSt
      rw [if_pos hcase]
  · constructor
    · intro hcontra
      exfalso
      have hfin := ReadRecordSt_final ts (rootDir ++ [47] ++ topic) batches []
        recordID hne hsz htot (by omega)
      simp only [List.append_nil] at hfin
      have hok : Storage.ReadRecord
          { topicPath := rootDir ++ [47] ++ topic
            nextRecordID := totalLen batches
            recordBatchIDs := startsFrom 0 batches }
          (addedFiles ts (rootDir ++ [47] ++ topic) 0 batches) recordID =
          .ok (batches.flatten.getD recordID []) := by
        show (Storage.ReadRecordSt _ _ recordID).1 = _
        rw [hfin]
      rw [hok] at hcontra
      exact Except.noConfusion hcontra
    · intro hcontra
      exact absurd hcontra hcase

/-- C3 witness: one batch of one record; reads at 0 succeed, reads at 1 and 3
are `OutOfBounds`, and a fresh empty coordinator rejects `ReadRecord 0`. -/
theorem readRecord_outOfBounds_iff_witness :
    (∀ b ∈ ([[[65]]] : List (List Bytes)), b ≠ []) ∧
    (∀ b ∈ ([[[65]]] : List (List Bytes)),
      32 + 4 * b.length + totalLen b < 2 ^ 32) ∧
    totalLen ([[[65]]] : List (List Bytes)) < 2 ^ 64 ∧
    (∃ s files,
      runAdds 7 { topicPath := [114] ++ [47] ++ [116], nextRecordID := 0,
                  recordBatchIDs := [] } [] [[[65]]] = .ok (s, files) ∧
      s.nextRecordID = totalLen ([[[65]]] : List (List Bytes)) ∧
      (∀ recordID, s.ReadRecord files recordID = .error .outOfBounds ↔
        s.nextRecordID ≤ recordID) ∧
      Storage.ReadRecord { topicPath := [114] ++ [47] ++ [116],
                           nextRecordID := 0, recordBatchIDs := [] } [] 0 =
        .error .outOfBounds) :=
  ⟨by decide, by decide, by decide,
   readRecord_outOfBounds_iff 7 [114] [116] [[[65]]]
     (by decide) (by decide) (by decide)⟩

/-- C2: codec round-trip.  Writing any record list (records may be empty byte
strings) and parsing the produced bytes yields a `RecordBatch` whose
`Record i` equals `records[i]` for every `i < len records`; the parsed index
holds the payload prefix sums, and for a non-final record the byte count read
is exactly `index[i+1] − index[i]` (the final record is read to end of file).
The size hypothesis keeps the file inside the `uint32` offset range the
format uses. -/
theorem codec_roundtrip (ts : Nat) (records : List Bytes) (i : Nat)
    (hsz : 32 + 4 * records.length + totalLen records < 2 ^ 32)
    (hi : i < records.length) :
    ∃ rb, recordbatch.Parse (recordbatch.Write ts records) = some rb ∧
      rb.Record i = .ok (records.getD i []) ∧
      rb.header.numRecords = records.length ∧
      rb.recordIndex = startsFrom 0 records ∧
      (i + 1 < records.length →
        rb.recordIndex.getD (i + 1) 0 - rb.recordIndex.getD i 0 =
          (records.getD i []).length) := by
  refine ⟨_, recordbatch.Parse_Write ts records hsz, ?_, rfl, rfl, ?_⟩
  · exact recordbatch.Record_Write ts records i hsz hi
  · intro hi1
    show (startsFrom 0 records).getD (i + 1) 0 -
      (startsFrom 0 records).getD i 0 = (records.getD i []).length
    rw [startsFrom_getD 0 records (i + 1) hi1, startsFrom_getD 0 records i hi,
      startOf_succ_getD records i hi]
    omega

/-- C2 witness: records `[0x41]` and `[0x42, 0x43]` round-trip at index 0,
with the non-final record read as exactly `index[1] − index[0] = 1` byte. -/
theorem codec_roundtrip_witness :
    32 + 4 * ([[65], [66, 67]] : List Bytes).length +
      totalLen ([[65], [66, 67]] : List Bytes) < 2 ^ 32 ∧
    0 < ([[65], [66, 67]] : List Bytes).length ∧
    (∃ rb, recordbatch.Parse (recordbatch.Write 0 [[65], [66, 67]]) = some rb ∧
      rb.Record 0 = .ok (([[65], [66, 67]] : List Bytes).getD 0 []) ∧
      rb.header.numRecords = ([[65], [66, 67]] : List Bytes).length ∧
      rb.recordIndex = startsFrom 0 [[65], [66, 67]] ∧
      (0 + 1 < ([[65], [66, 67]] : List Bytes).length →
        rb.recordIndex.getD (0 + 1) 0 - rb.recordIndex.getD 0 0 =
          (([[65], [66, 67]] : List Bytes).getD 0 []).length)) :=
  ⟨by decide, by decide,
   codec_roundtrip 0 [[65], [66, 67]] 0 (by decide) (by decide)⟩

/-- C7: codec byte layout.  `Write` emits exactly the 32-byte little-endian
header (magic `smb!`, version 1 as int16, the clock value as int64, the
record count as uint32, 14 zero reserved bytes), then the per-record index of
payload prefix sums as uint32s, then the payloads concatenated with no
separators; writing `[0x41]` and `[0x42, 0x43]` produces a 43-byte file whose
bytes after the header are the index `[0, 1]` followed by `0x41 0x42 0x43`.
The hypothesis keeps the prefix sums below `2 ^ 32` so the `uint32` index
accumulator does not wrap. -/
theorem write_layout (ts : Nat) (records : List Bytes)
    (hsz : totalLen records < 2 ^ 32) :
    (recordbatch.Write ts records).length =
      32 + 4 * records.length + totalLen records ∧
    (recordbatch.Write ts records).take 4 = [115, 109, 98, 33] ∧
    ((recordbatch.Write ts records).drop 4).take 2 = [1, 0] ∧
    ((recordbatch.Write ts records).drop 6).take 8 = recordbatch.u64le ts ∧
    ((recordbatch.Write ts records).drop 14).take 4 =
      recordbatch.u32le records.length ∧
    ((recordbatch.Write ts records).drop 18).take 14 = List.replicate 14 0 ∧
    (recordbatch.Write ts records).drop 32 =
      ((startsFrom 0 records).map recordbatch.u32le).flatten ++ records.flatten ∧
    (recordbatch.Write ts records).drop (32 + 4 * records.length) =
      records.flatten ∧
    (recordbatch.Write 0 [[65], [66, 67]]).length = 43 ∧
    (recordbatch.Write 0 [[65], [66, 67]]).drop 32 =
      [0, 0, 0, 0, 1, 0, 0, 0, 65, 66, 67] := by
  refine ⟨recordbatch.Write_length ts records, recordbatch.Write_take4 ts records,
    ?_, recordbatch.Write_drop6_take8 ts records,
    recordbatch.Write_drop14_take4 ts records,
    recordbatch.Write_drop18_take14 ts records, ?_,
    recordbatch.Write_drop_payload ts records, by decide, by decide⟩
  · rw [recordbatch.Write_drop4_take2]
    rfl
  · rw [recordbatch.Write_drop_32,
      recordbatch.buildRecordIndexes_eq_startsFrom 0 records (by omega)]

/-- C7 witness: the layout facts instantiated at the spec's concrete example
(records `[0x41]` and `[0x42, 0x43]`, timestamp 0). -/
theorem write_layout_witness :
    totalLen ([[65], [66, 67]] : List Bytes) < 2 ^ 32 ∧
    ((recordbatch.Write 0 [[65], [66, 67]]).length =
      32 + 4 * ([[65], [66, 67]] : List Bytes).length +
        totalLen ([[65], [66, 67]] : List Bytes) ∧
    (recordbatch.Write 0 [[65], [66, 67]]).take 4 = [115, 109, 98, 33] ∧
    ((recordbatch.Write 0 [[65], [66, 67]]).drop 4).take 2 = [1, 0] ∧
    ((recordbatch.Write 0 [[65], [66, 67]]).drop 6).take 8 =
      recordbatch.u64le 0 ∧
    ((recordbatch.Write 0 [[65], [66, 67]]).drop 14).take 4 =
      recordbatch.u32le ([[65], [66, 67]] : List Bytes).length ∧
    ((recordbatch.Write 0 [[65], [66, 67]]).drop 18).take 14 =
      List.replicate 14 0 ∧
    (recordbatch.Write 0 [[65], [66, 67]]).drop 32 =
      ((startsFrom 0 [[65], [66, 67]]).map recordbatch.u32le).flatten ++
        ([[65], [66, 67]] : List Bytes).flatten ∧
    (recordbatch.Write 0 [[65], [66, 67]]).drop
        (32 + 4 * ([[65], [66, 67]] : List Bytes).length) =
      ([[65], [66, 67]] : List Bytes).flatten ∧
    (recordbatch.Write 0 [[65], [66, 67]]).length = 43 ∧
    (recordbatch.Write 0 [[65], [66, 67]]).drop 32 =
      [0, 0, 0, 0, 1, 0, 0, 0, 65, 66, 67]) :=
  ⟨by decide, write_layout 0 [[65], [66, 67]] (by decide)⟩

/-- C10: `ReadRecord` is read-only on coordinator state.  For every state,
backing contents and record ID — success or any error — the state returned by
the state-threaded `ReadRecordSt` has the same `topicPath`, `recordBatchIDs`
and `nextRecordID` as the state before the call (the Go method body contains
no assignment to the receiver's fields). -/
theorem readRecord_frame (s : Storage) (files : Files) (recordID : Nat) :
    (s.ReadRecordSt files recordID).2.topicPath = s.topicPath ∧
    (s.ReadRecordSt files recordID).2.recordBatchIDs = s.recordBatchIDs ∧
    (s.ReadRecordSt files recordID).2.nextRecordID = s.nextRecordID := by
  unfold Storage.ReadRecordSt
  by_cases h : s.nextRecordID ≤ recordID
  · rw [if_pos h]
    exact ⟨rfl, rfl, rfl⟩
  · rw [if_neg h]
    dsimp only
    split
    · exact ⟨rfl, rfl, rfl⟩
    · split
      · exact ⟨rfl, rfl, rfl⟩
      · exact ⟨rfl, rfl, rfl⟩

/-- C4 (divergence demonstration): in `AddRecordBatch`, the writer's `Close`
runs via `defer f.Close()` and its error is discarded, after the in-memory
state has already been mutated.  With a failing Close (for the object-store
backing this is a failed S3 upload inside `s3WriteCloser.Close`) after a
successful open and codec write, the call still returns success and
`recordBatchIDs` / `nextRecordID` HAVE advanced — contradicting the claim
that a Close failure yields an error and unchanged state.  The two genuine
early-return failure points (open, codec write) do leave the state
unchanged. -/
theorem addRecordBatch_closeFailure_ignored :
    Storage.AddRecordBatchFx true true false
      { topicPath := [116], nextRecordID := 0, recordBatchIDs := [] } [[65]] =
      (none, { topicPath := [116], nextRecordID := 1, recordBatchIDs := [0] }) ∧
    (∀ s records, Storage.AddRecordBatchFx false true true s records =
      (some .ioError, s)) ∧
    (∀ s records, Storage.AddRecordBatchFx true false true s records =
      (some .ioError, s)) :=
  ⟨rfl, fun _ _ => rfl, fun _ _ => rfl⟩

/-- C8 (counterexample): with a failing upload, `s3WriteCloser.Close` returns
an error but does NOT close the local cache file — the code returns before
reaching `swc.f.Close()` — contradicting the claim that the cache file is
always closed. -/
theorem s3Close_upload_failure_leaves_open :
    (s3WriteCloserClose true false true).err = some .ioError ∧
    (s3WriteCloserClose true false true).fileClosed = false ∧
    (s3WriteCloserClose true false true).cacheFileOnDisk = true :=
  ⟨rfl, rfl, rfl⟩

/-- C8 (amended): `s3WriteCloser.Close` closes the local cache file exactly
when both the seek and the upload succeed; on seek or upload failure it
returns an error with the file left open; the cache file itself is left in
place on disk in every case, and `Close` returns nil exactly when all three
steps succeed. -/
theorem s3Close_discipline (seekOk uploadOk closeOk : Bool) :
    (s3WriteCloserClose seekOk uploadOk closeOk).fileClosed =
      (seekOk && uploadOk) ∧
    (s3WriteCloserClose seekOk uploadOk closeOk).cacheFileOnDisk = true ∧
    ((s3WriteCloserClose seekOk uploadOk closeOk).err = none ↔
      seekOk = true ∧ uploadOk = true ∧ closeOk = true) := by
  cases seekOk <;> cases uploadOk <;> cases closeOk <;>
    simp [s3WriteCloserClose]

/-- C5 (counterexample): the coordinator does not sort.  With two valid batch
files (IDs 0 with five records and 5 with three records) and `ListFiles`
returning the paths newest-first — an order §4.2 permits — `NewStorage`
stores `recordBatchIDs = [5, 0]`, which is not ascending, and sets
`nextRecordID = 0 + 5 = 5` from the LAST listed batch instead of
`5 + 3 = 8` from the numerically greatest. -/
theorem newStorage_unsorted_cex :
    (NewStorage
        [recordBatchPath ([114] ++ [47] ++ [116]) 5,
         recordBatchPath ([114] ++ [47] ++ [116]) 0]
        [(recordBatchPath ([114] ++ [47] ++ [116]) 0,
          recordbatch.Write 0 [[65], [66], [67], [68], [69]]),
         (recordBatchPath ([114] ++ [47] ++ [116]) 5,
          recordbatch.Write 0 [[70], [71], [72]])]
        [114] [116]).map (fun s => (s.recordBatchIDs, s.nextRecordID)) =
      .ok ([5, 0], 5) ∧
    ¬ List.Chain' (· < ·) ([5, 0] : List Nat) ∧
    (5 : Nat) ≠ 5 + 3 :=
  ⟨rfl, by intro h; rw [List.chain'_cons] at h; omega, by decide⟩

/-- C5 (amended): the coordinator stores the batch IDs in the order
`ListFiles` returned the paths, without sorting; `nextRecordID` is set from
the LAST listed batch.  Consequently, when `ListFiles` returns the paths in
ascending ID order (as both backings' lexically ordered listings do for the
zero-padded names), `recordBatchIDs` is ascending and `nextRecordID` equals
the numerically greatest batch ID plus that batch's header record count. -/
theorem newStorage_listed_order (ts : Nat) (rootDir topic : FPath)
    (ids : List Nat) (files : Files) (recs : List Bytes)
    (hne : ids ≠ [])
    (hchain : List.Chain' (· < ·) ids)
    (hlt : ∀ id ∈ ids, id < 2 ^ 64)
    (hfile : lookupFile files (recordBatchPath (rootDir ++ [47] ++ topic)
      (ids.getLast?.getD 0)) = some (recordbatch.Write ts recs))
    (hsz : 32 + 4 * recs.length + totalLen recs < 2 ^ 32)
    (hnext : ids.getLast?.getD 0 + recs.length < 2 ^ 64) :
    NewStorage (ids.map (recordBatchPath (rootDir ++ [47] ++ topic))) files
        rootDir topic =
      .ok { topicPath := rootDir ++ [47] ++ topic
            nextRecordID := ids.getLast?.getD 0 + recs.length
            recordBatchIDs := ids } ∧
    (∀ id ∈ ids, id ≤ ids.getLast?.getD 0) := by
  have hlist := listRecordBatchIDs_map (rootDir ++ [47] ++ topic) ids hlt
  have hempty : ids.isEmpty = false := by
    cases ids
    · exact absurd rfl hne
    · rfl
  have hhdr : readRecordBatchHeader files (rootDir ++ [47] ++ topic)
      (ids.getLast?.getD 0) = .ok
        { magicBytes := recordbatch.FileFormatMagicBytes
          version := recordbatch.FileFormatVersion
          unixEpochUs := ts % 2 ^ 64
          numRecords := recs.length } := by
    unfold readRecordBatchHeader
    rw [hfile]
    simp only [recordbatch.Parse_Write ts recs hsz]
  refine ⟨?_, chain'_lt_le_getLast ids hchain⟩
  unfold NewStorage
  dsimp only
  simp only [hlist, hempty, Bool.false_eq_true, if_false, hhdr]
  rw [Nat.mod_eq_of_lt hnext]

/-- C5 witness: two batches listed in ascending order ([0, 5], with batch 5
holding three records) give sorted `recordBatchIDs` and
`nextRecordID = 5 + 3`. -/
theorem newStorage_listed_order_witness :
    (([0, 5] : List Nat) ≠ [] ∧
     List.Chain' (· < ·) ([0, 5] : List Nat) ∧
     (∀ id ∈ ([0, 5] : List Nat), id < 2 ^ 64) ∧
     lookupFile
       [(recordBatchPath ([114] ++ [47] ++ [116]) 0,
         recordbatch.Write 0 [[65], [66], [67], [68], [69]]),
        (recordBatchPath ([114] ++ [47] ++ [116]) 5,
         recordbatch.Write 0 [[70], [71], [72]])]
       (recordBatchPath ([114] ++ [47] ++ [116])
         (([0, 5] : List Nat).getLast?.getD 0)) =
       some (recordbatch.Write 0 [[70], [71], [72]]) ∧
     32 + 4 * ([[70], [71], [72]] : List Bytes).length +
       totalLen ([[70], [71], [72]] : List Bytes) < 2 ^ 32 ∧
     ([0, 5] : List Nat).getLast?.getD 0 +
       ([[70], [71], [72]] : List Bytes).length < 2 ^ 64) ∧
    (NewStorage
        (([0, 5] : List Nat).map (recordBatchPath ([114] ++ [47] ++ [116])))
        [(recordBatchPath ([114] ++ [47] ++ [116]) 0,
          recordbatch.Write 0 [[65], [66], [67], [68], [69]]),
         (recordBatchPath ([114] ++ [47] ++ [116]) 5,
          recordbatch.Write 0 [[70], [71], [72]])]
        [114] [116] =
      .ok { topicPath := [114] ++ [47] ++ [116]
            nextRecordID := ([0, 5] : List Nat).getLast?.getD 0 +
              ([[70], [71], [72]] : List Bytes).length
            recordBatchIDs := [0, 5] } ∧
     (∀ id ∈ ([0, 5] : List Nat), id ≤ ([0, 5] : List Nat).getLast?.getD 0)) :=
  ⟨⟨by decide, by rw [List.chain'_cons]; exact ⟨by omega, List.chain'_singleton 5⟩,
    by decide, rfl, by decide, by decide⟩,
   newStorage_listed_order 0 [114] [116] [0, 5]
     [(recordBatchPath ([114] ++ [47] ++ [116]) 0,
       recordbatch.Write 0 [[65], [66], [67], [68], [69]]),
      (recordBatchPath ([114] ++ [47] ++ [116]) 5,
       recordbatch.Write 0 [[70], [71], [72]])]
     [[70], [71], [72]]
     (by decide) (by rw [List.chain'_cons]; exact ⟨by omega, List.chain'_singleton 5⟩)
     (by decide) rfl (by decide) (by decide)⟩

/-- C6 (counterexample): one successful `AddRecordBatch` call with an empty
record list succeeds, writes a zero-record file, and leaves
`recordBatchIDs = [0]` while zero records exist — so "batch ID 0 is present
iff at least one record exists" fails. -/
theorem batchIDs_zero_iff_cex :
    (runAdds 0 { topicPath := [116], nextRecordID := 0, recordBatchIDs := [] }
        [] [[]]).map (fun sf => (sf.1.recordBatchIDs, sf.1.nextRecordID)) =
      .ok ([0], 0) ∧
    totalLen ([[]] : List (List Bytes)) = 0 ∧
    ¬(((0 : Nat) ∈ ([0] : List Nat)) ↔ 0 < totalLen ([[]] : List (List Bytes))) :=
  ⟨rfl, rfl, by decide⟩

/-- C6 (amended): after every sequence of successful `AddRecordBatch` calls —
calls with an empty record list included — on a coordinator over empty
storage, `recordBatchIDs` is strictly increasing, and batch ID 0 is present
iff at least one call occurred (an empty batch makes ID 0 present with no
record existing, which is what the counterexample forces us to amend). -/
theorem batchIDs_strictMono (ts : Nat) (tp : FPath)
    (batches : List (List Bytes)) (s' : Storage) (files' : Files)
    (htot : totalLen batches < 2 ^ 64)
    (hrun : runAdds ts
      { topicPath := tp, nextRecordID := 0, recordBatchIDs := [] }
      [] batches = .ok (s', files')) :
    List.Chain' (· < ·) s'.recordBatchIDs ∧
    ((0 : Nat) ∈ s'.recordBatchIDs ↔ batches ≠ []) := by
  obtain ⟨hchain, newIDs, hids, hiff, hhead⟩ :=
    runAdds_chain ts batches
      { topicPath := tp, nextRecordID := 0, recordBatchIDs := [] } []
      s' files' hrun
      (by show (0 : Nat) + totalLen batches < 2 ^ 64; omega)
      (by simp) (by simp)
  refine ⟨hchain, ?_⟩
  rw [hids]
  simp only [List.nil_append]
  constructor
  · intro h0 hcontra
    rw [hiff.mpr hcontra] at h0
    simp at h0
  · intro hbs
    have hh := hhead hbs
    cases newIDs with
    | nil => simp at hh
    | cons a l =>
      have ha : a = 0 := by
        simpa using hh
      rw [ha]
      exact List.mem_cons_self 0 l

/-- C6 witness: the successful sequence `[[0x41]], []` (a one-record batch
followed by an empty batch) yields strictly increasing `recordBatchIDs`
`[0, 1]` with ID 0 present. -/
theorem batchIDs_strictMono_witness :
    totalLen ([[[65]], []] : List (List Bytes)) < 2 ^ 64 ∧
    runAdds 0 { topicPath := [116], nextRecordID := 0, recordBatchIDs := [] }
        [] [[[65]], []] =
      .ok ({ topicPath := [116], nextRecordID := 1, recordBatchIDs := [0, 1] },
           [(recordBatchPath [116] 1, recordbatch.Write 0 []),
            (recordBatchPath [116] 0, recordbatch.Write 0 [[65]])]) ∧
    (List.Chain' (· < ·)
        ({ topicPath := [116], nextRecordID := 1, recordBatchIDs := [0, 1] } :
          Storage).recordBatchIDs ∧
      ((0 : Nat) ∈
        ({ topicPath := [116], nextRecordID := 1, recordBatchIDs := [0, 1] } :
          Storage).recordBatchIDs ↔
        ([[[65]], []] : List (List Bytes)) ≠ [])) :=
  ⟨by decide, rfl,
   batchIDs_strictMono 0 [116] [[[65]], []]
     { topicPath := [116], nextRecordID := 1, recordBatchIDs := [0, 1] }
     [(recordBatchPath [116] 1, recordbatch.Write 0 []),
      (recordBatchPath [116] 0, recordbatch.Write 0 [[65]])]
     (by decide) rfl⟩
